import Mathlib

/-!
Verification of the RETURNN `TFEngine` training-loop orchestration core
(`Engine` / `Runner`), as a shallow embedding in Lean 4.

The embedding follows `TFEngine.py`:
* metric accumulation and normalization (`Runner._collect_eval_info`,
  `Runner._normalize_loss`, `Runner._finalize`),
* the Horovod data-exhaustion/error broadcast (`Runner._horovod_signal_broadcast`),
* the step loop of `Runner.run` (control flow: crash / cancel / peer-stop /
  end-of-data paths),
* the post-run part of `Engine.train_epoch` (crash checkpoint, broken
  checkpoint, canonical checkpoint decisions),
* checkpoint deletion (`Engine.delete_model`) over a model filesystem,
* retention cleanup (`Engine.cleanup_old_models`),
* the fetch-set builder (`Runner._get_fetches_dict`) over a cached graph state.

Numeric values fetched from the TF session are modelled as rationals.
String operations from Python (`in`, slicing after `find`, `startswith`,
`os.path.splitext`) are modelled on the underlying character lists so that
everything evaluates inside the kernel.
-/

namespace TFEngine

/-! ## String helpers (Python string operations) -/

/-- Python `c in s` for a single character. -/
def strHasChar (s : String) (c : Char) : Bool := s.data.contains c

/-- Python `s[s.find(c) + 1:]`: everything after the first occurrence of `c`
(empty if `c` does not occur). -/
def strAfterFirst (s : String) (c : Char) : String :=
  ⟨((s.data).dropWhile (fun a => a != c)).drop 1⟩

/-- Python `s.startswith(p)`. -/
def strStartsWith (s p : String) : Bool := p.data.isPrefixOf s.data

/-! ## NumbersDict

`Util.NumbersDict` (the per-run accumulators `_results_accumulated` and
`_inv_norm_accumulated`).  Modelled from the spec: `Util.py` is not part of the
sources under verification; the spec describes the accumulators as
"mapping metric-key -> running sum", i.e. addition is pointwise with missing
keys acting as 0 and the key set of a sum is the union of the key sets. -/
structure NDict where
  keys : List String
  val : String → ℚ

namespace NDict

/-- The numeric value of `d` at `k`: the stored value if the key is present,
else the additive default 0 (a missing key contributes nothing to a sum). -/
def valAt (d : NDict) (k : String) : ℚ :=
  if d.keys.contains k then d.val k else 0

/-- Pointwise sum; the key set is the union of both key sets. -/
def add (a b : NDict) : NDict :=
  { keys := a.keys ++ b.keys.filter (fun k => !a.keys.contains k)
    val := fun k => a.valAt k + b.valAt k }

def empty : NDict := { keys := [], val := fun _ => 0 }

@[simp] theorem contains_add (a b : NDict) (k : String) :
    (a.add b).keys.contains k = (a.keys.contains k || b.keys.contains k) := by
  simp only [add]
  cases ha : a.keys.contains k <;> cases hb : b.keys.contains k <;>
    simp_all [List.contains, List.elem_eq_mem, List.mem_filter]

@[simp] theorem valAt_add (a b : NDict) (k : String) :
    (a.add b).valAt k = a.valAt k + b.valAt k := by
  unfold valAt
  rw [contains_add]
  cases ha : a.keys.contains k <;> cases hb : b.keys.contains k <;>
    simp_all [add, valAt]

@[simp] theorem valAt_empty (k : String) : (empty).valAt k = 0 := by
  simp [empty, valAt]

@[simp] theorem contains_empty (k : String) : (empty).keys.contains k = false := by
  simp [empty]

theorem val_eq_valAt (d : NDict) (k : String) (h : k ∈ d.keys) :
    d.val k = d.valAt k := by
  simp [valAt, List.contains, List.elem_eq_mem, h]

end NDict

/-! ## `Runner._normalize_loss` -/

/-- `":" in key` (Python membership test on the key string). -/
def keyHasColon (key : String) : Bool := strHasChar key ':'

/-- `key[key.find(":") + 1:]`: everything after the first colon. -/
def keySuffix (key : String) : String := strAfterFirst key ':'

/-- `Runner._normalize_loss` (`TFEngine.py:281-303`).  Assertion failures
(`ConfigurationError` per the spec's error taxonomy) are modelled as
`Except.error`. -/
def normalize_loss (value : ℚ) (key : String) (inv_loss_norm_factors : NDict) :
    Except String ℚ :=
  if value = 0 then Except.ok value
  else if key = "loss" then
    -- The total loss is a special case: never normalized, as it is also
    -- used as-is for the gradient.
    Except.ok value
  else if inv_loss_norm_factors.keys.length = 0 then
    Except.error "assert len(loss_norm_keys) > 0"
  else if !keyHasColon key then
    Except.error "assert colon in key"
  else if inv_loss_norm_factors.keys.contains (keySuffix key) then
    Except.ok (value / inv_loss_norm_factors.valAt (keySuffix key))
  else
    Except.error "unexpected key"

/-! ## Accumulation (`Runner._collect_eval_info`) and `Runner._finalize` -/

/-- The per-step fetched data relevant to metric accumulation: the metric
entries (keys `cost:*` / `error:*` / `loss`) and the fetched
`loss_norm_factor:*` values, keyed by the layer-name suffix. -/
structure StepFetch where
  metrics : NDict
  lossNormFactors : NDict

/-- `inv_loss_norm_factors = NumbersDict({k: 1.0 / v ...})` for one step. -/
def stepInvNorm (s : StepFetch) : NDict :=
  { keys := s.lossNormFactors.keys, val := fun k => 1 / s.lossNormFactors.val k }

/-- Accumulation across steps (`self._results_accumulated += ...` and
`self._inv_norm_accumulated += inv_loss_norm_factors` in
`_collect_eval_info`). -/
def accumulate (steps : List StepFetch) : NDict × NDict :=
  steps.foldl (fun acc s => (acc.1.add s.metrics, acc.2.add (stepInvNorm s)))
    (NDict.empty, NDict.empty)

/-- The results of `Runner._finalize`: the full normalized `results` dict and
its `score` / `error` partitions. -/
structure FinalizeOut where
  results : List (String × ℚ)
  score : List (String × ℚ)
  error : List (String × ℚ)
deriving DecidableEq

/-- `results = {key: self._normalize_loss(value, key, self._inv_norm_accumulated) ...}` -/
def finalizeResults (racc iacc : NDict) : Except String (List (String × ℚ)) :=
  racc.keys.mapM (fun k => (normalize_loss (racc.val k) k iacc).map (fun v => (k, v)))

/-- `Runner._finalize` (`TFEngine.py:236-249`), run on the accumulated state of
a whole run.  `calculate_exp_loss` is the config flag of the same name; `expF`
models `numpy.exp` (an external numeric routine). -/
def finalizeRun (calculate_exp_loss : Bool) (expF : ℚ → ℚ) (steps : List StepFetch) :
    Except String FinalizeOut :=
  (finalizeResults (accumulate steps).1 (accumulate steps).2).map fun results =>
    { results := results
      score := results.filter (fun p => strStartsWith p.1 "cost:") ++
        (if calculate_exp_loss then
          (results.filter (fun p => strStartsWith p.1 "cost:")).map
            (fun p => (p.1 ++ ":exp", expF p.2))
        else [])
      error := results.filter (fun p => strStartsWith p.1 "error:") }

/-- The claim's formula: the sum over all steps of the raw fetched values for
metric key `k`. -/
def sumMetrics (steps : List StepFetch) (k : String) : ℚ :=
  (steps.map (fun s => s.metrics.valAt k)).sum

/-- The claim's formula: the sum over all steps of the inverse-normalization
factors accumulated under suffix `n`. -/
def sumInvNorm (steps : List StepFetch) (n : String) : ℚ :=
  (steps.map (fun s => (stepInvNorm s).valAt n)).sum

theorem accumulate_fst_valAt (steps : List StepFetch) (k : String) :
    (accumulate steps).1.valAt k = sumMetrics steps k := by
  suffices h : ∀ (a b : NDict),
      (steps.foldl (fun acc s => (acc.1.add s.metrics, acc.2.add (stepInvNorm s)))
        (a, b)).1.valAt k = a.valAt k + sumMetrics steps k by
    simpa [accumulate] using h NDict.empty NDict.empty
  induction steps with
  | nil => intro a b; simp [sumMetrics]
  | cons s rest ih =>
    intro a b
    simp only [List.foldl_cons, ih, NDict.valAt_add, sumMetrics, List.map_cons, List.sum_cons]
    ring

theorem accumulate_snd_valAt (steps : List StepFetch) (n : String) :
    (accumulate steps).2.valAt n = sumInvNorm steps n := by
  suffices h : ∀ (a b : NDict),
      (steps.foldl (fun acc s => (acc.1.add s.metrics, acc.2.add (stepInvNorm s)))
        (a, b)).2.valAt n = b.valAt n + sumInvNorm steps n by
    simpa [accumulate] using h NDict.empty NDict.empty
  induction steps with
  | nil => intro a b; simp [sumInvNorm]
  | cons s rest ih =>
    intro a b
    simp only [List.foldl_cons, ih, NDict.valAt_add, sumInvNorm, List.map_cons, List.sum_cons]
    ring

theorem mapM_except_ok_mem {α β : Type} (g : α → Except String β) :
    ∀ (xs : List α) (ys : List β), xs.mapM g = Except.ok ys →
      ∀ x ∈ xs, ∃ y ∈ ys, g x = Except.ok y := by
  intro xs
  induction xs with
  | nil => intro ys _ x hx; cases hx
  | cons a rest ih =>
    intro ys h x hx
    rw [List.mapM_cons] at h
    cases hga : g a with
    | error e => rw [hga] at h; simp [Bind.bind, Except.bind] at h
    | ok y =>
      rw [hga] at h
      cases hrest : rest.mapM g with
      | error e =>
        rw [hrest] at h; simp [Bind.bind, Except.bind] at h
      | ok ys' =>
        rw [hrest] at h
        simp only [Bind.bind, Except.bind, pure, Except.pure, Except.ok.injEq] at h
        subst h
        rcases List.mem_cons.mp hx with hx | hx
        · subst hx
          exact ⟨y, List.mem_cons_self _ _, hga⟩
        · obtain ⟨y', hy', hgy'⟩ := ih ys' hrest x hx
          exact ⟨y', List.mem_cons_of_mem _ hy', hgy'⟩

theorem keyHasColon_loss : keyHasColon "loss" = false := by decide

/-- C1 (amended): for every run, each `cost:*`/`error:*` entry of the
finalized results equals the accumulated raw sum divided by the accumulated
inverse-normalization-factor sum of the key's suffix; the `loss` entry is the
raw accumulated sum; `error` is exactly the `error:`-prefixed entries; `score`
is exactly the `cost:`-prefixed entries when `calculate_exp_loss` is off, and
additionally contains an `:exp` entry per cost key when it is on. -/
theorem metric_finalize (calculate_exp_loss : Bool) (expF : ℚ → ℚ)
    (steps : List StepFetch) (out : FinalizeOut)
    (h : finalizeRun calculate_exp_loss expF steps = Except.ok out) :
    (∀ k, keyHasColon k = true → k ∈ (accumulate steps).1.keys →
      (k, sumMetrics steps k / sumInvNorm steps (keySuffix k)) ∈ out.results)
    ∧ ("loss" ∈ (accumulate steps).1.keys →
      ("loss", sumMetrics steps "loss") ∈ out.results)
    ∧ out.error = out.results.filter (fun p => strStartsWith p.1 "error:")
    ∧ (calculate_exp_loss = false →
      out.score = out.results.filter (fun p => strStartsWith p.1 "cost:"))
    ∧ (calculate_exp_loss = true →
      out.score = out.results.filter (fun p => strStartsWith p.1 "cost:")
        ++ (out.results.filter (fun p => strStartsWith p.1 "cost:")).map
            (fun p => (p.1 ++ ":exp", expF p.2))) := by
  unfold finalizeRun at h
  cases hfr : finalizeResults (accumulate steps).1 (accumulate steps).2 with
  | error e => rw [hfr] at h; simp [Except.map] at h
  | ok results =>
    rw [hfr] at h
    simp only [Except.map, Except.ok.injEq] at h
    subst h
    refine ⟨?_, ?_, rfl, ?_, ?_⟩
    · intro k hk hmem
      obtain ⟨y, hy, hgy⟩ := mapM_except_ok_mem _ _ _ hfr k hmem
      have hval : (accumulate steps).1.val k = sumMetrics steps k := by
        rw [NDict.val_eq_valAt _ _ hmem, accumulate_fst_valAt]
      have hkne : k ≠ "loss" := by
        intro hkk; rw [hkk, keyHasColon_loss] at hk; cases hk
      unfold normalize_loss at hgy
      by_cases hz : (accumulate steps).1.val k = 0
      · rw [if_pos hz] at hgy
        simp only [Except.map, Except.ok.injEq] at hgy
        subst hgy
        have hsum0 : sumMetrics steps k = 0 := by rw [← hval, hz]
        rw [hsum0, zero_div, ← hz]
        exact hy
      · rw [if_neg hz, if_neg hkne] at hgy
        split at hgy
        · simp [Except.map] at hgy
        · rw [if_neg (by simp [hk])] at hgy
          split at hgy
          · simp only [Except.map, Except.ok.injEq] at hgy
            subst hgy
            rw [← accumulate_snd_valAt steps (keySuffix k), ← hval]
            exact hy
          · simp [Except.map] at hgy
    · intro hmem
      obtain ⟨y, hy, hgy⟩ := mapM_except_ok_mem _ _ _ hfr "loss" hmem
      have hval : (accumulate steps).1.val "loss" = sumMetrics steps "loss" := by
        rw [NDict.val_eq_valAt _ _ hmem, accumulate_fst_valAt]
      unfold normalize_loss at hgy
      by_cases hz : (accumulate steps).1.val "loss" = 0
      · rw [if_pos hz] at hgy
        simp only [Except.map, Except.ok.injEq] at hgy
        subst hgy
        rw [← hval]
        exact hy
      · rw [if_neg hz, if_pos rfl] at hgy
        simp only [Except.map, Except.ok.injEq] at hgy
        subst hgy
        rw [← hval]
        exact hy
    · intro hc; subst hc; simp
    · intro hc; subst hc; simp

/-- The single recorded step used for the C1 evaluation run: one fetched cost
value 4 for layer `output`, with fetched `loss_norm_factor:output` = 1/2
(hence per-step inverse factor 2). -/
def c1Step : StepFetch :=
  { metrics := { keys := ["cost:output"], val := fun k => if k = "cost:output" then 4 else 0 }
    lossNormFactors := { keys := ["output"], val := fun k => if k = "output" then 1/2 else 0 } }

/-- The finalized output of the `[c1Step]` run with `calculate_exp_loss`
enabled (taking the identity for the external `exp`). -/
def c1OutExp : FinalizeOut :=
  { results := [("cost:output", 2)]
    score := [("cost:output", 2), ("cost:output:exp", 2)]
    error := [] }

theorem c1Step_results_val : (accumulate [c1Step]).1.val "cost:output" = 4 := by
  norm_num [accumulate, c1Step, NDict.add, NDict.empty, NDict.valAt]

theorem c1Step_normalize :
    normalize_loss 4 "cost:output" (accumulate [c1Step]).2 = Except.ok 2 := by
  unfold normalize_loss
  rw [show (accumulate [c1Step]).2.keys = ["output"] from by decide]
  rw [show keySuffix "cost:output" = "output" from by decide]
  norm_num [keyHasColon, strHasChar, accumulate, c1Step, NDict.valAt, NDict.add,
    NDict.empty, stepInvNorm]
  decide

theorem c1Step_finalizeResults :
    finalizeResults (accumulate [c1Step]).1 (accumulate [c1Step]).2
      = Except.ok [("cost:output", 2)] := by
  unfold finalizeResults
  rw [show (accumulate [c1Step]).1.keys = ["cost:output"] from by decide]
  simp only [List.mapM_cons, List.mapM_nil]
  rw [c1Step_results_val, c1Step_normalize]
  simp [Except.map, Bind.bind, Except.bind, pure, Except.pure]

theorem c1_run_exp :
    finalizeRun true (fun x => x) [c1Step] = Except.ok c1OutExp := by
  unfold finalizeRun
  rw [c1Step_finalizeResults]
  simp [Except.map, c1OutExp, List.filter_cons,
    show strStartsWith "cost:output" "cost:" = true from by decide,
    show strStartsWith "cost:output" "error:" = false from by decide]

/-- C1 counterexample: with the `calculate_exp_loss` option enabled, the
`score` mapping contains the extra entry `cost:output:exp`, so it is not
exactly the set of normalized entries whose key starts with `cost:`. -/
theorem metric_finalize_cex :
    finalizeRun true (fun x => x) [c1Step] = Except.ok c1OutExp
    ∧ c1OutExp.score ≠ c1OutExp.results.filter (fun p => strStartsWith p.1 "cost:") := by
  refine ⟨c1_run_exp, ?_⟩
  intro hcontra
  have := congrArg List.length hcontra
  simp [c1OutExp, List.filter_cons,
    show strStartsWith "cost:output" "cost:" = true from by decide] at this

/-- Witness for the amended C1 theorem at the concrete run `[c1Step]`. -/
theorem metric_finalize_witness :
    ("cost:output",
      sumMetrics [c1Step] "cost:output" / sumInvNorm [c1Step] (keySuffix "cost:output"))
      ∈ (FinalizeOut.results ⟨[("cost:output", 2)], [("cost:output", 2)], []⟩)
    ∧ (FinalizeOut.error ⟨[("cost:output", 2)], [("cost:output", 2)], []⟩)
      = (FinalizeOut.results ⟨[("cost:output", 2)], [("cost:output", 2)], []⟩).filter
          (fun p => strStartsWith p.1 "error:") := by
  have h : finalizeRun false (fun x => x) [c1Step]
      = Except.ok ⟨[("cost:output", 2)], [("cost:output", 2)], []⟩ := by
    unfold finalizeRun
    rw [c1Step_finalizeResults]
    simp [Except.map, List.filter_cons,
      show strStartsWith "cost:output" "cost:" = true from by decide,
      show strStartsWith "cost:output" "error:" = false from by decide]
  have hm := metric_finalize false (fun x => x) [c1Step] _ h
  refine ⟨hm.1 "cost:output" (by decide) ?_, hm.2.2.1⟩
  show "cost:output" ∈ (accumulate [c1Step]).1.keys
  simp [accumulate, c1Step, NDict.add, NDict.empty]

/-- C7: for a non-`loss` key with a nonzero raw value, normalization fails when
no normalization factor was registered under the key's suffix; and a zero raw
value is returned unchanged for every key and every registered-factor state. -/
theorem normalize_loss_guards (value : ℚ) (key : String) (inv : NDict) :
    (value ≠ 0 → key ≠ "loss" → inv.keys.contains (keySuffix key) = false →
      ∃ e, normalize_loss value key inv = Except.error e)
    ∧ normalize_loss 0 key inv = Except.ok 0 := by
  constructor
  · intro h1 h2 h3
    unfold normalize_loss
    rw [if_neg h1, if_neg h2]
    split
    · exact ⟨_, rfl⟩
    · split
      · exact ⟨_, rfl⟩
      · have hc : ¬ (inv.keys.contains (keySuffix key) = true) := by
          intro hcc; rw [h3] at hcc; exact Bool.false_ne_true hcc
        rw [if_neg hc]
        exact ⟨_, rfl⟩
  · unfold normalize_loss
    rw [if_pos rfl]

/-- Witness for C7 at a concrete key and empty registered-factor state. -/
theorem normalize_loss_guards_witness :
    (∃ e, normalize_loss 1 "cost:output" NDict.empty = Except.error e)
    ∧ normalize_loss 0 "cost:output" NDict.empty = Except.ok 0 := by
  exact ⟨(normalize_loss_guards 1 "cost:output" NDict.empty).1
      (by norm_num) (by decide) (by decide),
    (normalize_loss_guards 1 "cost:output" NDict.empty).2⟩

/-! ## `Runner._horovod_signal_broadcast` (`TFEngine.py:408-446`)

The allreduce results (`sum_have_data`, `sum_have_error`) and the peer count
(`hvd.size()`) are environment inputs: they are produced by the communication
backend from all peers' votes (including this worker's own vote, fed through
the placeholders). -/

/-- Result of one call to `_horovod_signal_broadcast`: the returned pair
`(stop, error_occured)`, the new `_horovod_stopped_runner` flag, and whether a
communication round (`session.run` on the allreduce ops) was performed. -/
structure BroadcastResult where
  stop : Bool
  error : Bool
  stoppedAfter : Bool
  communicated : Bool
deriving DecidableEq

/-- `Runner._horovod_signal_broadcast(have_more_data, error)`.
`stopped` is the current `_horovod_stopped_runner` flag; `size`, `sumData` and
`sumErr` are `hvd.size()` and the two allreduce results. -/
def horovod_signal_broadcast (use_horovod stopped have_more_data error : Bool)
    (size sumData sumErr : ℕ) : BroadcastResult :=
  if !use_horovod then ⟨false, false, stopped, false⟩
  else if stopped then
    -- Stopped before? Keep in sync -> do not send anything anymore.
    ⟨true, false, stopped, false⟩
  else
    let stop := decide (sumData < size) || decide (0 < sumErr)
    ⟨stop, decide (0 < sumErr), stop, true⟩

/-- C4: with Horovod enabled, the stopped flag is set by an active-state round
exactly when the have-more-data vote sum is below the peer count or the error
sum is positive; it is never reset by any broadcast; and any broadcast called
while stopped performs no communication and returns `(stop=True, error=False)`. -/
theorem horovod_stopped_invariant (stopped have_more_data error : Bool)
    (size sumData sumErr : ℕ) :
    ((horovod_signal_broadcast true false have_more_data error size sumData sumErr).stoppedAfter
      = (decide (sumData < size) || decide (0 < sumErr)))
    ∧ (stopped = true →
      (horovod_signal_broadcast true stopped have_more_data error size sumData sumErr).stoppedAfter
        = true)
    ∧ (stopped = true →
      horovod_signal_broadcast true stopped have_more_data error size sumData sumErr
        = ⟨true, false, true, false⟩) := by
  refine ⟨rfl, ?_, ?_⟩ <;> intro hs <;> subst hs <;> rfl

/-- Witness for C4 at a concrete round (3 peers, one peer out of data). -/
theorem horovod_stopped_invariant_witness :
    ((horovod_signal_broadcast true false true false 3 2 0).stoppedAfter = true)
    ∧ (horovod_signal_broadcast true true true false 3 3 0
        = ⟨true, false, true, false⟩) := by
  refine ⟨?_, (horovod_stopped_invariant true true false 3 3 0).2.2 rfl⟩
  rw [(horovod_stopped_invariant true true false 3 2 0).1]
  decide

/-! ## The step loop of `Runner.run` (`TFEngine.py:487-666`)

The loop is modelled over a finite plan of loop iterations: the data
provider's `have_more_data` is true exactly while the plan is nonempty, and
each planned iteration carries the environment of that iteration (the
allreduce sums for the broadcast round, whether the session step raises, and
the `cancel_flag` value observed after the step). -/

/-- Environment of one loop iteration. -/
structure StepSpec where
  sumData : ℕ
  sumErr : ℕ
  stepOk : Bool
  cancel : Bool

/-- Which exception left the `try` body (`None` if it ran to completion). -/
inductive ExcKind where
  | peerFailed    -- "Some other Horovod peer failed."
  | stepFailure   -- an exception from session.run (device/backend fault)
  | cancelled     -- CancelTrainingException("cancel_flag is set")
  | endNotReached -- "Did not successfully reached the end of the dataset."
deriving DecidableEq

/-- Runner state relevant to the claims.  `hvdStop` is the local `hvd_stop`
variable of `run` (observable here for specification purposes). -/
structure RunState where
  step : ℕ
  stopped : Bool
  finalized : Bool
  device_crash_batch : Option ℕ
  exception : Option ExcKind
  hvdStop : Bool
deriving DecidableEq

/-- Global run configuration/environment: the Horovod config, the peer count,
whether `data_provider.have_reached_end()` holds when the loop exits, and the
allreduce environments of the final `_horovod_finish_data` and
`_horovod_signal_error` broadcasts. -/
structure RunCfg where
  use_horovod : Bool
  size : ℕ
  reachedEnd : Bool
  finishSumData : ℕ
  finishSumErr : ℕ
  errSumData : ℕ
  errSumErr : ℕ

/-- The `while self.data_provider.have_more_data(...)` loop.  Exceptions are
recorded together with `device_crash_batch = step`, exactly as the
`except BaseException` handler of `run` does (`TFEngine.py:645-653`) — note
that this handler also runs for `CancelTrainingException`. -/
def runSteps (cfg : RunCfg) : List StepSpec → RunState → RunState
  | [], st => st
  | spec :: rest, st =>
    let b := horovod_signal_broadcast cfg.use_horovod st.stopped true false
      cfg.size spec.sumData spec.sumErr
    let st1 := { st with stopped := b.stoppedAfter }
    if b.error then
      { st1 with exception := some .peerFailed, device_crash_batch := some st1.step }
    else if b.stop then
      { st1 with hvdStop := true }
    else if !spec.stepOk then
      { st1 with exception := some .stepFailure, device_crash_batch := some st1.step }
    else
      let st2 := { st1 with step := st1.step + 1 }
      if spec.cancel then
        { st2 with exception := some .cancelled, device_crash_batch := some st2.step }
      else
        runSteps cfg rest st2

/-- `Runner.run`: the loop, the end-of-data post-condition check, `_finalize`,
`_horovod_finish_data`, and the `finally` call to `_horovod_signal_error`. -/
def runnerRun (cfg : RunCfg) (specs : List StepSpec) : RunState :=
  let st0 : RunState := ⟨0, false, false, none, none, false⟩
  let st1 := runSteps cfg specs st0
  let st2 :=
    if st1.exception.isSome then st1
    else if !st1.hvdStop && !cfg.reachedEnd then
      { st1 with exception := some .endNotReached, device_crash_batch := some st1.step }
    else
      let stf := { st1 with finalized := true }
      let b := horovod_signal_broadcast cfg.use_horovod stf.stopped false false
        cfg.size cfg.finishSumData cfg.finishSumErr
      { stf with stopped := b.stoppedAfter }
  let b2 := horovod_signal_broadcast cfg.use_horovod st2.stopped false true
    cfg.size cfg.errSumData cfg.errSumErr
  { st2 with stopped := b2.stoppedAfter }

theorem runSteps_finalized (cfg : RunCfg) :
    ∀ (specs : List StepSpec) (st : RunState),
      (runSteps cfg specs st).finalized = st.finalized := by
  intro specs
  induction specs with
  | nil => intro st; rfl
  | cons spec rest ih =>
    intro st
    unfold runSteps
    dsimp only
    split
    · rfl
    · split
      · rfl
      · split
        · rfl
        · split
          · rfl
          · exact ih _

theorem runSteps_exception_crash (cfg : RunCfg) :
    ∀ (specs : List StepSpec) (st : RunState), st.exception = none →
      ∀ e, (runSteps cfg specs st).exception = some e →
        (runSteps cfg specs st).device_crash_batch = some (runSteps cfg specs st).step := by
  intro specs
  induction specs with
  | nil =>
    intro st hn e he
    simp only [runSteps] at he
    rw [hn] at he
    cases he
  | cons spec rest ih =>
    intro st hn e he
    unfold runSteps at he ⊢
    dsimp only at he ⊢
    split at he <;> rename_i h1
    · rw [if_pos h1]
    · rw [if_neg h1]
      split at he <;> rename_i h2
      · rw [if_pos h2]
        rw [hn] at he; cases he
      · rw [if_neg h2]
        split at he <;> rename_i h3
        · rw [if_pos h3]
        · rw [if_neg h3]
          split at he <;> rename_i h4
          · rw [if_pos h4]
          · rw [if_neg h4]
            exact ih _ hn e he

theorem runSteps_hvdStop_exception (cfg : RunCfg) :
    ∀ (specs : List StepSpec) (st : RunState),
      (runSteps cfg specs st).hvdStop = true → st.hvdStop = false →
        (runSteps cfg specs st).exception = st.exception := by
  intro specs
  induction specs with
  | nil => intro st h hf; rfl
  | cons spec rest ih =>
    intro st h hf
    unfold runSteps at h ⊢
    dsimp only at h ⊢
    split at h <;> rename_i h1
    · rw [if_pos h1]
      dsimp only at h
      rw [hf] at h; cases h
    · rw [if_neg h1]
      split at h <;> rename_i h2
      · rw [if_pos h2]
      · rw [if_neg h2]
        split at h <;> rename_i h3
        · rw [if_pos h3]
          dsimp only at h
          rw [hf] at h; cases h
        · rw [if_neg h3]
          split at h <;> rename_i h4
          · rw [if_pos h4]
            dsimp only at h
            rw [hf] at h; cases h
          · rw [if_neg h4]
            exact ih _ h hf

/-- Normal loop iteration environment: all peers still have data, no peer
error, the session step succeeds, no cancellation requested. -/
def normalSpec (cfg : RunCfg) (t : StepSpec) : Prop :=
  cfg.size ≤ t.sumData ∧ t.sumErr = 0 ∧ t.stepOk = true ∧ t.cancel = false

theorem runSteps_normal_pre (cfg : RunCfg) (h_hvd : cfg.use_horovod = true) :
    ∀ (pre : List StepSpec) (s : StepSpec) (rest : List StepSpec) (st : RunState),
      st.stopped = false → st.exception = none → st.hvdStop = false →
      (∀ t ∈ pre, normalSpec cfg t) →
      s.sumData < cfg.size → s.sumErr = 0 →
      (runSteps cfg (pre ++ s :: rest) st).exception = none
      ∧ (runSteps cfg (pre ++ s :: rest) st).hvdStop = true
      ∧ (runSteps cfg (pre ++ s :: rest) st).finalized = st.finalized := by
  intro pre
  induction pre with
  | nil =>
    intro s rest st hstp hexc hhvd _ hsd hse
    have hb : horovod_signal_broadcast cfg.use_horovod st.stopped true false
        cfg.size s.sumData s.sumErr = ⟨true, false, true, true⟩ := by
      unfold horovod_signal_broadcast
      rw [h_hvd, hstp]
      simp only [Bool.not_true, Bool.false_eq_true, if_false]
      rw [decide_eq_true hsd, hse]
      decide
    simp only [List.nil_append]
    unfold runSteps
    dsimp only
    rw [hb]
    exact ⟨hexc, rfl, rfl⟩
  | cons t pre ih =>
    intro s rest st hstp hexc hhvd hnorm hsd hse
    obtain ⟨h1, h2, h3, h4⟩ := hnorm t (List.mem_cons_self _ _)
    have hb : horovod_signal_broadcast cfg.use_horovod st.stopped true false
        cfg.size t.sumData t.sumErr = ⟨false, false, false, true⟩ := by
      unfold horovod_signal_broadcast
      rw [h_hvd, hstp]
      simp only [Bool.not_true, Bool.false_eq_true, if_false]
      rw [decide_eq_false (Nat.not_lt.mpr h1), h2]
      decide
    simp only [List.cons_append]
    unfold runSteps
    dsimp only
    rw [hb]
    simp only [Bool.false_eq_true, if_false, h3, Bool.not_true, h4]
    exact ih s rest _ rfl hexc hhvd (fun u hu => hnorm u (List.mem_cons_of_mem _ hu)) hsd hse

/-- C5: (a) the run is finalized only if the data provider reached its end or
a peer signalled stop; (b) exhausting the loop without end-confirmation and
without a peer stop raises and leaves the runner unfinalized; (c) a clean
prefix followed by a peer stop without error finalizes successfully. -/
theorem runner_finalize_conditions (cfg : RunCfg) (specs : List StepSpec) :
    ((runnerRun cfg specs).finalized = true →
      cfg.reachedEnd = true ∨ (runnerRun cfg specs).hvdStop = true)
    ∧ ((runSteps cfg specs ⟨0, false, false, none, none, false⟩).exception = none →
      (runSteps cfg specs ⟨0, false, false, none, none, false⟩).hvdStop = false →
      cfg.reachedEnd = false →
      (runnerRun cfg specs).exception = some .endNotReached
        ∧ (runnerRun cfg specs).finalized = false)
    ∧ (∀ (pre : List StepSpec) (s : StepSpec) (rest : List StepSpec),
      cfg.use_horovod = true →
      (∀ t ∈ pre, normalSpec cfg t) →
      s.sumData < cfg.size → s.sumErr = 0 →
      specs = pre ++ s :: rest →
      (runnerRun cfg specs).finalized = true
        ∧ (runnerRun cfg specs).exception = none) := by
  have hfin0 : (runSteps cfg specs ⟨0, false, false, none, none, false⟩).finalized = false :=
    runSteps_finalized cfg specs _
  refine ⟨?_, ?_, ?_⟩
  · intro hf
    unfold runnerRun at hf ⊢
    dsimp only at hf ⊢
    split at hf <;> rename_i hA
    · rw [hfin0] at hf; cases hf
    · split at hf <;> rename_i hB
      · dsimp only at hf; rw [hfin0] at hf; cases hf
      · rw [if_neg hA, if_neg hB]
        cases hhs : (runSteps cfg specs ⟨0, false, false, none, none, false⟩).hvdStop
        · cases hre : cfg.reachedEnd
          · exact absurd (by rw [hhs, hre]; rfl) hB
          · exact Or.inl rfl
        · exact Or.inr rfl
  · intro hexc hhvd hre
    unfold runnerRun
    dsimp only
    rw [if_neg (by rw [hexc]; simp), if_pos (by rw [hhvd, hre]; rfl)]
    exact ⟨rfl, hfin0⟩
  · intro pre s rest hhvd hnorm hsd hse hspecs
    subst hspecs
    obtain ⟨hexc, hstop, _⟩ := runSteps_normal_pre cfg hhvd pre s rest
      ⟨0, false, false, none, none, false⟩ rfl rfl rfl hnorm hsd hse
    unfold runnerRun
    dsimp only
    rw [if_neg (by rw [hexc]; simp), if_neg (by rw [hstop]; simp)]
    exact ⟨rfl, hexc⟩

/-- Witness for C5: (a) a no-data run with confirmed end finalizes and indeed
the end was reached; (b) a no-data run without end-confirmation raises and
stays unfinalized; (c) a 2-peer run where the peer stops at the first round
finalizes cleanly. -/
theorem runner_finalize_conditions_witness :
    (true = true ∨ (runnerRun ⟨false, 0, true, 0, 0, 0, 0⟩ []).hvdStop = true)
    ∧ ((runnerRun ⟨false, 0, false, 0, 0, 0, 0⟩ []).exception = some .endNotReached
        ∧ (runnerRun ⟨false, 0, false, 0, 0, 0, 0⟩ []).finalized = false)
    ∧ ((runnerRun ⟨true, 2, false, 1, 0, 1, 0⟩ [⟨1, 0, true, false⟩]).finalized = true
        ∧ (runnerRun ⟨true, 2, false, 1, 0, 1, 0⟩ [⟨1, 0, true, false⟩]).exception = none) := by
  refine ⟨?_, ?_, ?_⟩
  · exact (runner_finalize_conditions ⟨false, 0, true, 0, 0, 0, 0⟩ []).1 (by decide)
  · exact (runner_finalize_conditions ⟨false, 0, false, 0, 0, 0, 0⟩ []).2.1
      (by decide) (by decide) rfl
  · exact (runner_finalize_conditions ⟨true, 2, false, 1, 0, 1, 0⟩ [⟨1, 0, true, false⟩]).2.2
      [] ⟨1, 0, true, false⟩ [] rfl (by intro t ht; cases ht) (by decide) rfl rfl

/-! ## The post-run part of `Engine.train_epoch` (`TFEngine.py:1263-1286`) -/

/-- Observable actions of the engine after the training runner returns. -/
inductive EpochAction where
  | write (filename : String)
  | exitProc (code : ℕ)
  | evalModel
  | cleanupModels
deriving DecidableEq

/-- The runner state `train_epoch` inspects after `trainer.run(...)`.
`score_nonfinite` models `any(isinf(...)) or any(isnan(...))` over the final
score values (non-finiteness of IEEE floats is not representable in ℚ, so it
enters as an input flag). -/
structure TrainerOutcome where
  finalized : Bool
  device_crash_batch : Option ℕ
  score_nonfinite : Bool
deriving DecidableEq

/-- `Engine.save_model` (`TFEngine.py:816-825`): writes the checkpoint file
unless `_do_save()` is false (Horovod rank != 0). -/
def save_model (do_save : Bool) (filename : String) : List EpochAction :=
  if do_save then [EpochAction.write filename] else []

/-- The tail of `Engine.train_epoch` after the runner returns
(`TFEngine.py:1263-1286`): crash-checkpoint + exit when the runner did not
finalize; broken-checkpoint + exit on a non-finite score (when
`stop_on_nonfinite_train_score`); otherwise the canonical epoch checkpoint
(when the save interval is due), evaluation, and optional cleanup.
Bookkeeping actions without claim-relevant effects (learning-rate history
updates, log output) are not traced. -/
def train_epoch_post (do_save stop_on_nonfinite_train_score save_due cleanup_enabled : Bool)
    (epoch_model_filename : String) (t : TrainerOutcome) : List EpochAction :=
  if !t.finalized then
    (match t.device_crash_batch with
      | some s => save_model do_save (epoch_model_filename ++ ".crash_" ++ toString s)
      | none => []) ++ [EpochAction.exitProc 1]
  else if t.score_nonfinite && stop_on_nonfinite_train_score then
    save_model do_save (epoch_model_filename ++ ".broken") ++ [EpochAction.exitProc 1]
  else
    (if save_due then save_model do_save epoch_model_filename else [])
      ++ [EpochAction.evalModel]
      ++ (if cleanup_enabled then [EpochAction.cleanupModels] else [])

theorem strAppend_ne (a b : String) (hb : 0 < b.length) : a ≠ a ++ b := by
  intro h
  have := congrArg String.length h
  rw [String.length_append] at this
  omega

/-- C3: in a saving process, a non-finalized run with recorded crash step `s`
makes `train_epoch` write exactly the `.crash_<s>`-suffixed checkpoint and
exit with status 1; the canonical epoch checkpoint is not written. -/
theorem train_epoch_crash_checkpoint (stop_nf save_due cleanup_enabled : Bool)
    (fn : String) (t : TrainerOutcome) (s : ℕ)
    (hf : t.finalized = false) (hc : t.device_crash_batch = some s) :
    train_epoch_post true stop_nf save_due cleanup_enabled fn t
      = [EpochAction.write (fn ++ ".crash_" ++ toString s), EpochAction.exitProc 1]
    ∧ EpochAction.write fn ∉ train_epoch_post true stop_nf save_due cleanup_enabled fn t := by
  have htr : train_epoch_post true stop_nf save_due cleanup_enabled fn t
      = [EpochAction.write (fn ++ ".crash_" ++ toString s), EpochAction.exitProc 1] := by
    unfold train_epoch_post
    rw [hf, hc]
    rfl
  refine ⟨htr, ?_⟩
  rw [htr]
  intro hmem
  rcases List.mem_cons.mp hmem with h | h
  · have hfn : fn = fn ++ ".crash_" ++ toString s := EpochAction.write.inj h
    rw [String.append_assoc] at hfn
    exact strAppend_ne fn (".crash_" ++ toString s)
      (by rw [String.length_append]; have : (".crash_" : String).length = 7 := rfl; omega) hfn
  · rcases List.mem_cons.mp h with h2 | h2
    · cases h2
    · cases h2

/-- Witness for C3 at a crash in step 7 of epoch model `net.012`. -/
theorem train_epoch_crash_checkpoint_witness :
    train_epoch_post true true true false "net.012" ⟨false, some 7, false⟩
      = [EpochAction.write "net.012.crash_7", EpochAction.exitProc 1]
    ∧ EpochAction.write "net.012"
      ∉ train_epoch_post true true true false "net.012" ⟨false, some 7, false⟩ := by
  have h := train_epoch_crash_checkpoint true true false "net.012" ⟨false, some 7, false⟩ 7 rfl rfl
  refine ⟨?_, h.2⟩
  rw [h.1]
  rfl

/-! ## C6: the cancellation path -/

theorem runnerRun_exception_crash (cfg : RunCfg) (specs : List StepSpec) (e : ExcKind)
    (he : (runnerRun cfg specs).exception = some e) :
    (runnerRun cfg specs).device_crash_batch = some (runnerRun cfg specs).step
    ∧ (runnerRun cfg specs).finalized = false := by
  have hfin0 : (runSteps cfg specs ⟨0, false, false, none, none, false⟩).finalized = false :=
    runSteps_finalized cfg specs _
  unfold runnerRun at he ⊢
  dsimp only at he ⊢
  split at he <;> rename_i hA
  · rw [if_pos hA]
    obtain ⟨e', he'⟩ := Option.isSome_iff_exists.mp hA
    exact ⟨runSteps_exception_crash cfg specs _ rfl e' he', hfin0⟩
  · rw [if_neg hA]
    split at he <;> rename_i hB
    · rw [if_pos hB]
      exact ⟨rfl, hfin0⟩
    · rw [if_neg hB]
      dsimp only at he
      rw [Option.not_isSome_iff_eq_none.mp hA] at he
      cases he

/-- C6 (amended): a cancelled run (CancelTrainingException raised after the
current step) still records `device_crash_batch` as the current step and does
not finalize, so the engine's crash-checkpoint path IS taken: a
`.crash_<step>` checkpoint is written and the process exits with status 1. -/
theorem runner_cancel_marks_crash (cfg : RunCfg) (specs : List StepSpec)
    (stop_nf save_due cleanup_enabled nonfinite : Bool) (fn : String)
    (hc : (runnerRun cfg specs).exception = some .cancelled) :
    (runnerRun cfg specs).device_crash_batch = some (runnerRun cfg specs).step
    ∧ (runnerRun cfg specs).finalized = false
    ∧ EpochAction.write (fn ++ ".crash_" ++ toString (runnerRun cfg specs).step)
      ∈ train_epoch_post true stop_nf save_due cleanup_enabled fn
        ⟨(runnerRun cfg specs).finalized, (runnerRun cfg specs).device_crash_batch, nonfinite⟩
    ∧ EpochAction.exitProc 1
      ∈ train_epoch_post true stop_nf save_due cleanup_enabled fn
        ⟨(runnerRun cfg specs).finalized, (runnerRun cfg specs).device_crash_batch, nonfinite⟩ := by
  obtain ⟨hcrash, hfin⟩ := runnerRun_exception_crash cfg specs .cancelled hc
  have htr := (train_epoch_crash_checkpoint stop_nf save_due cleanup_enabled fn
    ⟨(runnerRun cfg specs).finalized, (runnerRun cfg specs).device_crash_batch, nonfinite⟩
    (runnerRun cfg specs).step (by rw [hfin]) (by rw [hcrash])).1
  rw [htr]
  exact ⟨hcrash, hfin, List.mem_cons_self _ _,
    List.mem_cons_of_mem _ (List.mem_cons_self _ _)⟩

/-- The run used for the C6 evaluation: no Horovod, one planned iteration
whose step succeeds and where the cancel flag is observed set. -/
def c6Cfg : RunCfg := ⟨false, 0, false, 0, 0, 0, 0⟩

/-- C6 counterexample: a cancelled run records the crash step and
`train_epoch` then writes a `.crash_1` checkpoint — the crash-checkpoint path
IS taken for a cancellation, contradicting the claim. -/
theorem runner_cancel_cex :
    (runnerRun c6Cfg [⟨0, 0, true, true⟩]).exception = some .cancelled
    ∧ (runnerRun c6Cfg [⟨0, 0, true, true⟩]).device_crash_batch = some 1
    ∧ (runnerRun c6Cfg [⟨0, 0, true, true⟩]).finalized = false
    ∧ train_epoch_post true true true false "net.005"
        ⟨(runnerRun c6Cfg [⟨0, 0, true, true⟩]).finalized,
         (runnerRun c6Cfg [⟨0, 0, true, true⟩]).device_crash_batch, false⟩
      = [EpochAction.write "net.005.crash_1", EpochAction.exitProc 1] := by
  refine ⟨by decide, by decide, by decide, ?_⟩
  have h := (train_epoch_crash_checkpoint true true false "net.005"
    ⟨(runnerRun c6Cfg [⟨0, 0, true, true⟩]).finalized,
     (runnerRun c6Cfg [⟨0, 0, true, true⟩]).device_crash_batch, false⟩ 1
    (by decide) (by decide)).1
  rw [h]
  rfl

/-- Witness for the amended C6 theorem at the concrete cancelled run. -/
theorem runner_cancel_marks_crash_witness :
    (runnerRun c6Cfg [⟨0, 0, true, true⟩]).device_crash_batch
      = some (runnerRun c6Cfg [⟨0, 0, true, true⟩]).step
    ∧ (runnerRun c6Cfg [⟨0, 0, true, true⟩]).finalized = false
    ∧ EpochAction.write ("net.005" ++ ".crash_" ++ toString (runnerRun c6Cfg [⟨0, 0, true, true⟩]).step)
      ∈ train_epoch_post true true true false "net.005"
        ⟨(runnerRun c6Cfg [⟨0, 0, true, true⟩]).finalized,
         (runnerRun c6Cfg [⟨0, 0, true, true⟩]).device_crash_batch, false⟩
    ∧ EpochAction.exitProc 1
      ∈ train_epoch_post true true true false "net.005"
        ⟨(runnerRun c6Cfg [⟨0, 0, true, true⟩]).finalized,
         (runnerRun c6Cfg [⟨0, 0, true, true⟩]).device_crash_batch, false⟩ :=
  runner_cancel_marks_crash c6Cfg [⟨0, 0, true, true⟩] true true false false "net.005" (by decide)

/-! ## `Engine.delete_model` (`TFEngine.py:827-846`)

The filesystem is a list of `(filename, size-in-bytes)` pairs. -/

/-- `os.path.splitext(fn)[1]`: the extension starting at the last dot of the
basename, empty when the basename has no dot after its leading dots
(Python's rule: leading dots of the basename never start an extension). -/
def splitext_ext (p : String) : String :=
  let base := ((p.data.reverse.takeWhile (fun c => c != '/')).reverse)
  let rest := base.dropWhile (fun c => c == '.')
  if rest.contains '.' then
    ⟨'.' :: (rest.reverse.takeWhile (fun c => c != '.')).reverse⟩
  else ""

/-- The per-file selection of `delete_model`: `glob(filename + "*")` keeps the
names starting with `filename`, and the extension filter keeps `.index`,
`.meta` and `.data*` files. -/
def delete_matches (filename : String) (fn : String) : Bool :=
  strStartsWith fn filename
    && (splitext_ext fn == ".index" || splitext_ext fn == ".meta"
        || strStartsWith (splitext_ext fn) ".data")

/-- `Engine.delete_model(filename)`: asserts the `.index` file exists, removes
every matching file accumulating its byte size, and asserts a positive byte
count.  Returns the reclaimed bytes and the remaining filesystem. -/
def delete_model (fs : List (String × ℕ)) (filename : String) :
    Except String (ℕ × List (String × ℕ)) :=
  if !(fs.any (fun f => f.1 == filename ++ ".index")) then
    Except.error "assert os.path.exists(filename + .index)"
  else
    let count := ((fs.filter (fun f => delete_matches filename f.1)).map (fun f => f.2)).sum
    if count = 0 then Except.error "assert count_bytes > 0"
    else Except.ok (count, fs.filter (fun f => !delete_matches filename f.1))

/-- C8: deletion fails (rather than returning 0) when no file matches — in
particular when the required `.index` file is missing — and on success it
returns the accumulated byte size of exactly the deleted files, which is
asserted to be positive. -/
theorem delete_model_spec (fs : List (String × ℕ)) (filename : String) :
    ((filename ++ ".index") ∉ fs.map (fun f => f.1) →
      ∃ e, delete_model fs filename = Except.error e)
    ∧ (fs.filter (fun f => delete_matches filename f.1) = [] →
      ∃ e, delete_model fs filename = Except.error e)
    ∧ (∀ n fs', delete_model fs filename = Except.ok (n, fs') →
      n = ((fs.filter (fun f => delete_matches filename f.1)).map (fun f => f.2)).sum
      ∧ 0 < n
      ∧ fs' = fs.filter (fun f => !delete_matches filename f.1)) := by
  refine ⟨?_, ?_, ?_⟩
  · intro hidx
    cases hany : fs.any (fun f => f.1 == filename ++ ".index") with
    | true =>
      obtain ⟨f, hf, hbe⟩ := List.any_eq_true.mp hany
      exact absurd (List.mem_map.mpr ⟨f, hf, eq_of_beq hbe⟩) hidx
    | false =>
      unfold delete_model
      rw [hany]
      exact ⟨_, rfl⟩
  · intro hmatch
    unfold delete_model
    split
    · exact ⟨_, rfl⟩
    · rw [hmatch]
      exact ⟨_, rfl⟩
  · intro n fs' hok
    unfold delete_model at hok
    split at hok
    · cases hok
    · dsimp only at hok
      split at hok <;> rename_i hz
      · cases hok
      · simp only [Except.ok.injEq, Prod.mk.injEq] at hok
        exact ⟨hok.1.symm, hok.1 ▸ Nat.pos_of_ne_zero hz, hok.2.symm⟩

/-- Witness for C8: missing index file fails; a present checkpoint is deleted
with its byte count. -/
theorem delete_model_spec_witness :
    (∃ e, delete_model [("other.003.index", 5)] "net.012" = Except.error e)
    ∧ (∃ e, delete_model [("net.012.index", 10)] "bogus" = Except.error e)
    ∧ ((12 : ℕ) = (([(("net.012.index" : String), (12 : ℕ))].filter
          (fun f => delete_matches "net.012" f.1)).map (fun f => f.2)).sum
      ∧ 0 < (12 : ℕ)
      ∧ ([] : List (String × ℕ)) = [(("net.012.index" : String), (12 : ℕ))].filter
          (fun f => !delete_matches "net.012" f.1)) := by
  refine ⟨?_, ?_, ?_⟩
  · exact (delete_model_spec [("other.003.index", 5)] "net.012").1 (by decide)
  · exact (delete_model_spec [("net.012.index", 10)] "bogus").2.1 (by rfl)
  · exact (delete_model_spec [("net.012.index", 12)] "net.012").2.2 12 [] (by rfl)

/-- C10 (amended): `delete_model` removes exactly the files whose name starts
with the base filename and whose final extension is `.index`, `.meta` or
starts with `.data`; every other file is untouched.  Note that the component
files of `.crash_<n>`/`.broken`-tagged checkpoints themselves end in
`.index`/`.meta`/`.data*` and share the base-name's name part as a name
start, so they match the filter and ARE deleted together with the canonical
checkpoint. -/
theorem delete_model_frame (fs : List (String × ℕ)) (filename : String)
    (n : ℕ) (fs' : List (String × ℕ))
    (hok : delete_model fs filename = Except.ok (n, fs')) :
    fs' = fs.filter (fun f => !delete_matches filename f.1)
    ∧ ∀ f ∈ fs, delete_matches filename f.1 = false → f ∈ fs' := by
  have h := (delete_model_spec fs filename).2.2 n fs' hok
  refine ⟨h.2.2, ?_⟩
  intro f hf hnm
  rw [h.2.2]
  exact List.mem_filter.mpr ⟨hf, by rw [hnm]; rfl⟩

/-- C10 counterexample: deleting the canonical checkpoint `net.012` also
deletes the crash-tagged checkpoint file `net.012.crash_7.index` (its final
extension is `.index` and its name starts with `net.012`), while the
unrelated `net.012.txt` is kept — contradicting the claim that crash-tagged
checkpoints are left untouched. -/
theorem delete_model_frame_cex :
    delete_model
      [("net.012.index", 10), ("net.012.crash_7.index", 20), ("net.012.txt", 5)]
      "net.012"
      = Except.ok (30, [("net.012.txt", 5)]) := by rfl

/-- Witness for the amended C10 theorem at the same concrete filesystem. -/
theorem delete_model_frame_witness :
    ([(("net.012.txt" : String), (5 : ℕ))]
      = ([("net.012.index", 10), ("net.012.crash_7.index", 20),
          ("net.012.txt", 5)] : List (String × ℕ)).filter
          (fun f => !delete_matches "net.012" f.1))
    ∧ (("net.012.txt", 5) : String × ℕ) ∈ [(("net.012.txt" : String), (5 : ℕ))] := by
  have h := delete_model_frame
    [("net.012.index", 10), ("net.012.crash_7.index", 20), ("net.012.txt", 5)]
    "net.012" 30 [("net.012.txt", 5)] (by rfl)
  exact ⟨h.1, h.2 ("net.012.txt", 5) (by decide) (by rfl)⟩

/-! ## `Engine.cleanup_old_models` (`TFEngine.py:1392-1491`)

`epochs` is `sorted(existing_models.keys())`; `epochData` is the learning-rate
controller's per-epoch error dict (`lr_control.epochData[e].error`), as an
association list.  Model files and byte counts are abstracted: the result
reports which epochs get deleted. -/

/-- First-occurrence deduplication, modelling iteration over a Python `set`
built from a list (the order is then fixed by an explicit `sorted(...)`). -/
def pyDedup {α : Type} [BEq α] (l : List α) : List α :=
  l.foldl (fun acc k => if acc.contains k then acc else acc ++ [k]) []

/-- Python string comparison: lexicographic on code points. -/
def charListLe : List Char → List Char → Bool
  | [], _ => true
  | _ :: _, [] => false
  | a :: as, b :: bs =>
    if a.val < b.val then true
    else if b.val < a.val then false
    else charListLe as bs

def strLe (a b : String) : Prop := charListLe a.data b.data = true

instance : DecidableRel strLe := fun a b => by unfold strLe; infer_instance

/-- Python tuple comparison on `(score, epoch)` pairs. -/
def pairLe (a b : ℚ × ℕ) : Prop := a.1 < b.1 ∨ (a.1 = b.1 ∧ a.2 ≤ b.2)

instance : DecidableRel pairLe := fun a b => by unfold pairLe; infer_instance

instance : IsTotal (ℚ × ℕ) pairLe where
  total a b := by
    rcases lt_trichotomy a.1 b.1 with h | h | h
    · exact Or.inl (Or.inl h)
    · rcases Nat.le_total a.2 b.2 with h2 | h2
      · exact Or.inl (Or.inr ⟨h, h2⟩)
      · exact Or.inr (Or.inr ⟨h.symm, h2⟩)
    · exact Or.inr (Or.inl h)

instance : IsTrans (ℚ × ℕ) pairLe where
  trans a b c hab hbc := by
    rcases hab with h1 | ⟨h1, h1'⟩ <;> rcases hbc with h2 | ⟨h2, h2'⟩
    · exact Or.inl (h1.trans h2)
    · exact Or.inl (h2 ▸ h1)
    · exact Or.inl (h1 ▸ h2)
    · exact Or.inr ⟨h1.trans h2, h1'.trans h2'⟩

/-- The breakpoint table for the default periodic keep pattern
(`TFEngine.py:1421-1432`): `(keep_every, keep_doubles_of)` chosen from the
maximum stored epoch. -/
def breakpointKeepParams (last : ℕ) : ℕ × ℕ :=
  if last ≤ 10 then (4, 5)
  else if last ≤ 50 then (20, 5)
  else if last ≤ 100 then (40, 10)
  else (80, 20)

/-- The default periodic pattern (`TFEngine.py:1433-1442`): all multiples of
`keep_every` up to the max epoch, plus `keep_doubles_of * 2^i` up to the max
epoch. -/
def defaultKeepPattern (last : ℕ) : Finset ℕ :=
  ((List.range' 1 (last / (breakpointKeepParams last).1)).map
    (fun i => (breakpointKeepParams last).1 * i)).toFinset
  ∪ (((List.range (last + 1)).map (fun i => (breakpointKeepParams last).2 * 2 ^ i)).filter
    (fun n => n ≤ last)).toFinset

/-- `score_values[key]`: the values of `key` over the stored-model epochs that
recorded it (`TFEngine.py:1451-1455`). -/
def scoreValuesFor (epochData : List (ℕ × List (String × ℚ))) (epochs : List ℕ)
    (key : String) : List ℚ :=
  epochs.filterMap (fun e => ((List.lookup e epochData).getD []).lookup key)

/-- `min(scores)` of a nonempty list (callers guard emptiness). -/
def listMin (l : List ℚ) : ℚ := l.foldl min (l.headD 0)

/-- `max(scores)` of a nonempty list. -/
def listMax (l : List ℚ) : ℚ := l.foldl max (l.headD 0)

/-- `sorted(score_keys)` over the set of keys from all epoch error dicts
(`TFEngine.py:1445-1450`). -/
def scoreKeysSorted (epochData : List (ℕ × List (String × ℚ))) : List String :=
  List.insertionSort strLe (pyDedup ((epochData.map (fun p => p.2.map Prod.fst)).flatten))

/-- The score keys that discriminate between epochs: keys whose value is
identical across all epochs are dropped (`TFEngine.py:1456-1461`). -/
def discriminatingKeys (epochData : List (ℕ × List (String × ℚ))) (epochs : List ℕ) :
    List String :=
  (scoreKeysSorted epochData).filter
    (fun k => !(listMin (scoreValuesFor epochData epochs k)
      == listMax (scoreValuesFor epochData epochs k)))

/-- The best `keep_best_n` epochs for one score key (`TFEngine.py:1465-1469`):
sort `(score, epoch)` pairs (missing scores replaced by the worst observed
value) and take the epochs of the first `keep_best_n`. -/
def bestNEpochs (epochData : List (ℕ × List (String × ℚ))) (epochs : List ℕ)
    (key : String) (worst : ℚ) (keep_best_n : ℕ) : List ℕ :=
  ((List.insertionSort pairLe (epochs.map
    (fun e => ((((List.lookup e epochData).getD []).lookup key).getD worst, e)))).take
      keep_best_n).map (fun p => p.2)

/-- The final keep-set (`TFEngine.py:1419-1470`): default pattern or explicit
`keep` option, plus the last `keep_last_n` epochs, plus the best
`keep_best_n` epochs per discriminating score key, intersected with the known
epochs. -/
def cleanupKeepSet (epochs : List ℕ) (epochData : List (ℕ × List (String × ℚ)))
    (keep_last_n keep_best_n : ℕ) (keepOverride : Option (List ℕ)) : Finset ℕ :=
  ((discriminatingKeys epochData epochs).foldl
    (fun acc key => acc ∪ (bestNEpochs epochData epochs key
      (listMax (scoreValuesFor epochData epochs key)) keep_best_n).toFinset)
    ((match keepOverride with
      | some ks => ks.toFinset
      | none => defaultKeepPattern (epochs.getLastD 0))
      ∪ (epochs.drop (epochs.length - keep_last_n)).toFinset))
  ∩ epochs.toFinset

/-- `sorted(set(epochs).difference(keep_epochs))` (`TFEngine.py:1474`). -/
def removeList (epochs : List ℕ) (keep : Finset ℕ) : List ℕ :=
  List.insertionSort (fun a b => a ≤ b)
    ((pyDedup epochs).filter (fun e => decide (e ∉ keep)))

/-- Result of a cleanup invocation. `noCleanup` covers the early returns
(nothing saved in this process, no stored models, or not enough epochs yet);
`keepAll` the keep-set-covers-everything return; the last two report the
computed keep-set and the epochs whose models are (or, in a dry run, would be) deleted. -/
inductive CleanupResult where
  | noCleanup
  | keepAll
  | dryRunKeep (keep : Finset ℕ) (remove : List ℕ)
  | deletedModels (keep : Finset ℕ) (remove : List ℕ)
deriving DecidableEq

/-- `Engine.cleanup_old_models` (`TFEngine.py:1392-1491`).  `do_save` is
`Engine._do_save()`; `keepOverride` the optional explicit `"keep"` option;
failures of the Python asserts / KeyError / ValueError are `Except.error`. -/
def cleanup_old_models (do_save : Bool) (epochs : List ℕ)
    (epochData : List (ℕ × List (String × ℚ)))
    (keep_last_n keep_best_n : ℕ) (keepOverride : Option (List ℕ))
    (dry_run : Bool) : Except String CleanupResult :=
  if !do_save then Except.ok CleanupResult.noCleanup
  else if epochs.isEmpty then Except.ok CleanupResult.noCleanup
  else if keep_last_n < 1 then Except.error "assert keep_last_n >= 1"
  else if epochs.length ≤ max keep_last_n keep_best_n then Except.ok CleanupResult.noCleanup
  else if epochs.any (fun e => (List.lookup e epochData).isNone) then
    Except.error "KeyError: lr_control.epochData[epoch]"
  else if ((epochData.map (fun p => p.2.map Prod.fst)).flatten).isEmpty then
    Except.error "assert score_keys"
  else if (scoreKeysSorted epochData).any
      (fun k => (scoreValuesFor epochData epochs k).isEmpty) then
    Except.error "ValueError: min() arg is an empty sequence"
  else if (cleanupKeepSet epochs epochData keep_last_n keep_best_n keepOverride).card
      = epochs.length then
    Except.ok CleanupResult.keepAll
  else if (removeList epochs
      (cleanupKeepSet epochs epochData keep_last_n keep_best_n keepOverride)).isEmpty then
    Except.error "assert remove_epochs"
  else if dry_run then
    Except.ok (CleanupResult.dryRunKeep
      (cleanupKeepSet epochs epochData keep_last_n keep_best_n keepOverride)
      (removeList epochs (cleanupKeepSet epochs epochData keep_last_n keep_best_n keepOverride)))
  else
    Except.ok (CleanupResult.deletedModels
      (cleanupKeepSet epochs epochData keep_last_n keep_best_n keepOverride)
      (removeList epochs (cleanupKeepSet epochs epochData keep_last_n keep_best_n keepOverride)))

theorem foldl_min_le_init (l : List ℚ) : ∀ a : ℚ, l.foldl min a ≤ a := by
  induction l with
  | nil => intro a; exact le_refl a
  | cons y ys ih => intro a; exact le_trans (ih (min a y)) (min_le_left a y)

theorem foldl_min_le_mem (l : List ℚ) : ∀ a x : ℚ, x ∈ l → l.foldl min a ≤ x := by
  induction l with
  | nil => intro a x hx; cases hx
  | cons y ys ih =>
    intro a x hx
    rcases List.mem_cons.mp hx with h | h
    · subst h
      exact le_trans (foldl_min_le_init ys (min a x)) (min_le_right a x)
    · exact ih (min a y) x h

theorem le_foldl_max_init (l : List ℚ) : ∀ a : ℚ, a ≤ l.foldl max a := by
  induction l with
  | nil => intro a; exact le_refl a
  | cons y ys ih => intro a; exact le_trans (le_max_left a y) (ih (max a y))

theorem le_foldl_max_mem (l : List ℚ) : ∀ a x : ℚ, x ∈ l → x ≤ l.foldl max a := by
  induction l with
  | nil => intro a x hx; cases hx
  | cons y ys ih =>
    intro a x hx
    rcases List.mem_cons.mp hx with h | h
    · subst h
      exact le_trans (le_max_right a x) (le_foldl_max_init ys (max a x))
    · exact ih (max a y) x h

theorem listMin_le_mem (l : List ℚ) (x : ℚ) (hx : x ∈ l) : listMin l ≤ x :=
  foldl_min_le_mem l _ x hx

theorem le_listMax_mem (l : List ℚ) (x : ℚ) (hx : x ∈ l) : x ≤ listMax l :=
  le_foldl_max_mem l _ x hx

theorem rat_beq_false_of_ne {a b : ℚ} (h : a ≠ b) : (a == b) = false := by
  cases hb : a == b
  · rfl
  · exact absurd (eq_of_beq hb) h

/-- The head of the Python sort of `(score, epoch)` pairs is the unique
pair with strictly smallest score. -/
theorem insertionSort_cons_min (l : List (ℚ × ℕ)) (m : ℚ × ℕ)
    (hm : m ∈ l) (hmin : ∀ x ∈ l, x = m ∨ m.1 < x.1) :
    ∃ t, List.insertionSort pairLe l = m :: t := by
  have hperm := List.perm_insertionSort pairLe l
  have hsorted := List.sorted_insertionSort pairLe l
  cases hsl : List.insertionSort pairLe l with
  | nil =>
    rw [hsl] at hperm
    rw [hperm.symm.eq_nil] at hm
    cases hm
  | cons h t =>
    have hmem_iff : ∀ x : ℚ × ℕ, x ∈ h :: t ↔ x ∈ l := by
      intro x; rw [← hsl]; exact hperm.mem_iff
    have hh : h ∈ l := (hmem_iff h).mp (List.mem_cons_self h t)
    rw [hsl] at hsorted
    rcases hmin h hh with he | hlt
    · exact ⟨t, by rw [he]⟩
    · exfalso
      have hm2 : m ∈ h :: t := (hmem_iff m).mpr hm
      rcases List.mem_cons.mp hm2 with hmh | hmt
      · rw [hmh] at hlt; exact lt_irrefl _ hlt
      · rcases (List.sorted_cons.mp hsorted).1 m hmt with h2 | ⟨h2, _⟩
        · exact lt_irrefl _ (hlt.trans h2)
        · rw [h2] at hlt; exact lt_irrefl _ hlt

/-- Stored-model epochs 1..12 of the C2 scenario. -/
def c2Epochs : List ℕ := List.range' 1 12

/-- Epoch data of the C2 scenario: a single score key `dev_score` with value
`f e` at epoch `e`. -/
def c2EpochData (f : ℕ → ℚ) : List (ℕ × List (String × ℚ)) :=
  c2Epochs.map (fun e => (e, [("dev_score", f e)]))

theorem lookup_map_pair {β : Type} (g : ℕ → β) :
    ∀ (l : List ℕ) (e : ℕ), e ∈ l →
      List.lookup e (l.map (fun x => (x, g x))) = some (g e) := by
  intro l
  induction l with
  | nil => intro e he; cases he
  | cons x xs ih =>
    intro e he
    by_cases hex : e = x
    · subst hex
      simp [List.lookup]
    · rcases List.mem_cons.mp he with h | h
      · exact absurd h hex
      · simp only [List.map_cons, List.lookup]
        rw [show (e == x) = false from by simp [hex]]
        exact ih e h

theorem filterMap_eq_map_of_some {α β : Type} (g : α → Option β) (h : α → β) :
    ∀ l : List α, (∀ e ∈ l, g e = some (h e)) → l.filterMap g = l.map h := by
  intro l
  induction l with
  | nil => intro _; rfl
  | cons x xs ih =>
    intro hall
    rw [List.filterMap_cons, hall x (List.mem_cons_self x xs), List.map_cons,
      ih (fun e he => hall e (List.mem_cons_of_mem x he))]

theorem c2_lookup (f : ℕ → ℚ) (e : ℕ) (he : e ∈ c2Epochs) :
    List.lookup e (c2EpochData f) = some [("dev_score", f e)] := by
  rw [show c2EpochData f = c2Epochs.map (fun x => (x, [("dev_score", f x)])) from rfl]
  exact lookup_map_pair (fun x => [("dev_score", f x)]) c2Epochs e he

theorem c2_scoreValues (f : ℕ → ℚ) :
    scoreValuesFor (c2EpochData f) c2Epochs "dev_score" = c2Epochs.map f := by
  unfold scoreValuesFor
  refine filterMap_eq_map_of_some _ f c2Epochs (fun e he => ?_)
  rw [c2_lookup f e he]
  rfl

theorem c2_scoreKeys (f : ℕ → ℚ) : scoreKeysSorted (c2EpochData f) = ["dev_score"] := by
  unfold scoreKeysSorted
  rw [show ((c2EpochData f).map (fun p => p.2.map Prod.fst)).flatten
    = ["dev_score", "dev_score", "dev_score", "dev_score", "dev_score", "dev_score",
       "dev_score", "dev_score", "dev_score", "dev_score", "dev_score", "dev_score"] from rfl]
  rfl

/-- C2: for stored epochs 1..12, `keep_last_n = 2`, `keep_best_n = 1` and a
single strictly decreasing score key, cleanup computes the keep-set
`{5, 10, 11, 12}` and deletes exactly the models of epochs
`{1, 2, 3, 4, 6, 7, 8, 9}` — unless dry-run is set, in which case the same
keep/remove sets are computed but nothing is deleted. -/
theorem cleanup_retention_c2 (f : ℕ → ℚ)
    (hf : ∀ i j : ℕ, 1 ≤ i → i < j → j ≤ 12 → f j < f i) :
    cleanup_old_models true c2Epochs (c2EpochData f) 2 1 none false
      = Except.ok (CleanupResult.deletedModels {5, 10, 11, 12} [1, 2, 3, 4, 6, 7, 8, 9])
    ∧ cleanup_old_models true c2Epochs (c2EpochData f) 2 1 none true
      = Except.ok (CleanupResult.dryRunKeep {5, 10, 11, 12} [1, 2, 3, 4, 6, 7, 8, 9]) := by
  have hminmax : listMin (c2Epochs.map f) ≠ listMax (c2Epochs.map f) := by
    have h1 : listMin (c2Epochs.map f) ≤ f 12 :=
      listMin_le_mem _ _ (List.mem_map_of_mem f (by decide))
    have h2 : f 1 ≤ listMax (c2Epochs.map f) :=
      le_listMax_mem _ _ (List.mem_map_of_mem f (by decide))
    have h3 : f 12 < f 1 := hf 1 12 (by decide) (by decide) (by decide)
    exact ne_of_lt (lt_of_le_of_lt h1 (lt_of_lt_of_le h3 h2))
  have hdisc : discriminatingKeys (c2EpochData f) c2Epochs = ["dev_score"] := by
    unfold discriminatingKeys
    rw [c2_scoreKeys f]
    simp only [List.filter_cons, List.filter_nil]
    rw [c2_scoreValues f, rat_beq_false_of_ne hminmax]
    rfl
  have hbest : ∀ w : ℚ, bestNEpochs (c2EpochData f) c2Epochs "dev_score" w 1 = [12] := by
    intro w
    have hm : (f 12, 12) ∈ c2Epochs.map (fun e => (f e, e)) :=
      List.mem_map_of_mem _ (by decide)
    have hmin : ∀ x ∈ c2Epochs.map (fun e => (f e, e)), x = (f 12, 12) ∨ (f 12, 12).1 < x.1 := by
      intro x hx
      obtain ⟨e, he, hxe⟩ := List.mem_map.mp hx
      subst hxe
      have he2 : 1 ≤ e ∧ e < 1 + 12 := List.mem_range'_1.mp he
      by_cases h12 : e = 12
      · subst h12; exact Or.inl rfl
      · exact Or.inr (hf e 12 he2.1 (by omega) (by omega))
    obtain ⟨t, ht⟩ := insertionSort_cons_min (c2Epochs.map (fun e => (f e, e))) (f 12, 12) hm hmin
    unfold bestNEpochs
    rw [List.map_congr_left (fun e he =>
      show ((((List.lookup e (c2EpochData f)).getD []).lookup "dev_score").getD w, e)
        = (f e, e) by rw [c2_lookup f e he]; rfl)]
    rw [ht]
    rfl
  have hkeep : cleanupKeepSet c2Epochs (c2EpochData f) 2 1 none = {5, 10, 11, 12} := by
    unfold cleanupKeepSet
    rw [hdisc]
    simp only [List.foldl_cons, List.foldl_nil]
    rw [hbest (listMax (scoreValuesFor (c2EpochData f) c2Epochs "dev_score"))]
    decide
  have hcond5 : c2Epochs.any (fun e => (List.lookup e (c2EpochData f)).isNone) = false := by
    rw [List.any_eq_false]
    intro e he
    rw [c2_lookup f e he]
    simp
  have hflat : ((c2EpochData f).map (fun p => p.2.map Prod.fst)).flatten
      = ["dev_score", "dev_score", "dev_score", "dev_score", "dev_score", "dev_score",
         "dev_score", "dev_score", "dev_score", "dev_score", "dev_score", "dev_score"] := rfl
  have hcond7 : (scoreKeysSorted (c2EpochData f)).any
      (fun k => (scoreValuesFor (c2EpochData f) c2Epochs k).isEmpty) = false := by
    rw [c2_scoreKeys f]
    simp only [List.any_cons, List.any_nil]
    rw [c2_scoreValues f]
    rw [show (c2Epochs.map f).isEmpty = false from rfl]
    rfl
  constructor <;>
  · unfold cleanup_old_models
    rw [if_neg (by decide), if_neg (by decide), if_neg (by decide), if_neg (by decide),
      if_neg (by rw [hcond5]; exact Bool.false_ne_true),
      if_neg (by rw [hflat]; decide),
      if_neg (by rw [hcond7]; exact Bool.false_ne_true),
      hkeep,
      if_neg (by decide),
      show removeList c2Epochs {5, 10, 11, 12} = [1, 2, 3, 4, 6, 7, 8, 9] from by decide,
      if_neg (by decide)]
    rfl

/-- Witness for C2 with the concrete strictly decreasing score `f e = 20 - e`. -/
theorem cleanup_retention_c2_witness :
    cleanup_old_models true c2Epochs (c2EpochData (fun e => 20 - (e : ℚ))) 2 1 none false
      = Except.ok (CleanupResult.deletedModels {5, 10, 11, 12} [1, 2, 3, 4, 6, 7, 8, 9])
    ∧ cleanup_old_models true c2Epochs (c2EpochData (fun e => 20 - (e : ℚ))) 2 1 none true
      = Except.ok (CleanupResult.dryRunKeep {5, 10, 11, 12} [1, 2, 3, 4, 6, 7, 8, 9]) :=
  cleanup_retention_c2 (fun e => 20 - (e : ℚ)) (by
    intro i j _ h2 _
    show 20 - (j : ℚ) < 20 - (i : ℚ)
    have : (i : ℚ) < (j : ℚ) := by exact_mod_cast h2
    linarith)

/-! ## `Runner._get_fetches_dict` (`TFEngine.py:93-186`)

The fetch-set builder over a computation-graph state.  Graph nodes are
identified by name.  Modelled from the spec where the caching collaborator is
outside `src/`: `TFUtil.global_tensor` caches graph nodes by name (repeated
requests return the cached node and create nothing), `network.get_objective`
and `updater.get_optim_op` cache their created nodes on first call (see the
comments at `TFEngine.py:98-99,124`).  The merged-summaries cache is
`Engine.get_all_merged_summaries` (`TFEngine.py:1493-1502`, in `src/`). -/

/-- Graph and engine caches the builder touches: the set of created graph
nodes and the engine's `_merge_all_summaries` cache. -/
structure BuildState where
  graph : List String
  mergedSummaries : Option String
deriving DecidableEq

/-- Modelled from the spec: `TFUtil.global_tensor(f, name)` returns the cached
node of that name, running `f` (which creates the node) only on the first
request. -/
def global_tensor (g : List String) (name : String) : String × List String :=
  if g.contains name then (name, g) else (name, g ++ [name])

/-- `name.replace(":", "__").replace("/", "_")` (single-character patterns). -/
def sanitizeName (s : String) : String :=
  ⟨(s.data.map (fun c =>
    if c = ':' then [Char.ofNat 95, Char.ofNat 95]
    else if c = '/' then [Char.ofNat 95] else [c])).flatten⟩

/-- One entry-building action of `_get_fetches_dict`, in source order:
- `fixed`: an already-existing tensor/placeholder (size placeholders, loss
  tensors without Horovod, stats, extra fetches, post-control-dependencies);
- `prepare`: a cached node built for its side effect only (the objective /
  zero-loss constant, built before the `loss` entry wraps it);
- `cached`: an entry whose node goes through a by-name cache
  (`reduce_sum` under Horovod, `optim_op`, `mem_usage:*`);
- `invCached`: `inv_reduce_sum` under Horovod — on first build it also
  creates the inner reduce node, then caches the outer node;
- `summary`: the merged-summaries entry through the engine cache. -/
inductive FetchReq where
  | fixed (key node : String)
  | prepare (name : String)
  | cached (key name : String)
  | invCached (key name : String)
  | summary
deriving DecidableEq

/-- Process one request against the caches; returns the dict entries it
contributes and the new state.  The `summary` case collapses the two
consecutive `get_all_merged_summaries()` calls of `TFEngine.py:175-176`
(the second call hits the engine cache filled by the first). -/
def processReq (hasSummaries : Bool) (st : BuildState) :
    FetchReq → List (String × String) × BuildState
  | FetchReq.fixed key node => ([(key, node)], st)
  | FetchReq.prepare name =>
    ([], { st with graph := (global_tensor st.graph name).2 })
  | FetchReq.cached key name =>
    ([(key, (global_tensor st.graph name).1)],
     { st with graph := (global_tensor st.graph name).2 })
  | FetchReq.invCached key name =>
    if st.graph.contains ("fetch_inv_reduce_sum__" ++ name) then
      ([(key, "fetch_inv_reduce_sum__" ++ name)], st)
    else
      ([(key, "fetch_inv_reduce_sum__" ++ name)],
       { st with graph :=
          (global_tensor st.graph ("fetch_reduce_sum__" ++ name)).2
            ++ ["fetch_inv_reduce_sum__" ++ name] })
  | FetchReq.summary =>
    match st.mergedSummaries with
    | some n => ([("summary", n)], st)
    | none =>
      if hasSummaries then
        ([("summary", "merged_summary_" ++ toString st.graph.length)],
         { graph := st.graph ++ ["merged_summary_" ++ toString st.graph.length],
           mergedSummaries := some ("merged_summary_" ++ toString st.graph.length) })
      else ([], st)

def processReqs (hasSummaries : Bool) : List FetchReq → BuildState →
    List (String × String) × BuildState
  | [], st => ([], st)
  | r :: rs, st =>
    ((processReq hasSummaries st r).1
        ++ (processReqs hasSummaries rs (processReq hasSummaries st r).2).1,
      (processReqs hasSummaries rs (processReq hasSummaries st r).2).2)

/-- One loss of `network.losses_dict` as the builder sees it. -/
structure LossSpec where
  name : String
  onlyOnEval : Bool
  hasLossValue : Bool
  hasErrorValue : Bool

/-- The builder's environment: config flags and the pre-existing tensors the
collaborators hand out (as node names). -/
structure FetchEnv where
  use_horovod : Bool
  shouldTrain : Bool
  shouldEval : Bool
  sizeFetches : List (String × String)
  objectiveIsZero : Bool
  losses : List LossSpec
  lossValueNode : String → String
  lossErrorNode : String → String
  lossNormNode : String → String
  targetSizeFetches : List (String × String)
  statFetches : List (String × String)
  optimMetaLosses : List (String × String)
  extraFetches : List (String × String)
  hasSummaries : Bool
  logMemUsage : Bool
  gpuDevs : List String
  postControlDeps : Option String

/-- `reduce_sum(x, name)` (`TFEngine.py:101-108`): plain tensor without
Horovod, else a `global_tensor`-cached allreduce node. -/
def reduceSumReq (useHvd : Bool) (key node : String) : FetchReq :=
  if useHvd then FetchReq.cached key ("fetch_reduce_sum__" ++ sanitizeName key)
  else FetchReq.fixed key node

/-- `inv_reduce_sum(x, name)` (`TFEngine.py:110-116`). -/
def invReduceSumReq (useHvd : Bool) (key node : String) : FetchReq :=
  if useHvd then FetchReq.invCached key (sanitizeName key)
  else FetchReq.fixed key node

/-- The `cost:*`/`error:*`/`loss_norm_factor:*` entries of one loss
(`TFEngine.py:131-139`). -/
def lossEntryReqs (env : FetchEnv) (l : LossSpec) : List FetchReq :=
  if l.onlyOnEval && env.shouldTrain then []
  else
    (if l.hasLossValue then
      [reduceSumReq env.use_horovod ("cost:" ++ l.name) (env.lossValueNode l.name)] else [])
    ++ (if l.hasErrorValue then
      [reduceSumReq env.use_horovod ("error:" ++ l.name) (env.lossErrorNode l.name)] else [])
    ++ [invReduceSumReq env.use_horovod ("loss_norm_factor:" ++ l.name) (env.lossNormNode l.name)]

/-- The request list of `_get_fetches_dict`, in source order
(`TFEngine.py:118-186`). -/
def fetchRequests (env : FetchEnv) : List FetchReq :=
  (env.sizeFetches.map (fun p => FetchReq.fixed p.1 p.2))
  ++ (if env.shouldTrain || env.shouldEval then
      [FetchReq.prepare (if env.objectiveIsZero then "const_zero_loss" else "objective")]
      ++ [reduceSumReq env.use_horovod "loss"
          (if env.objectiveIsZero then "const_zero_loss" else "objective")]
      ++ (env.losses.map (lossEntryReqs env)).flatten
      ++ env.targetSizeFetches.map (fun p => FetchReq.fixed p.1 p.2)
    else [])
  ++ env.statFetches.map (fun p => FetchReq.fixed p.1 p.2)
  ++ (if env.shouldTrain then
      [FetchReq.cached "optim_op" "optim_op"]
      ++ env.optimMetaLosses.map (fun p => FetchReq.fixed p.1 p.2)
    else [])
  ++ env.extraFetches.map (fun p => FetchReq.fixed p.1 p.2)
  ++ [FetchReq.summary]
  ++ (if env.logMemUsage then
      env.gpuDevs.map (fun dev => FetchReq.cached ("mem_usage:" ++ dev) ("mem_usage_" ++ dev))
    else [])
  ++ (match env.postControlDeps with
    | some node => [FetchReq.fixed "post_control_dependencies" node]
    | none => [])

/-- `Runner._get_fetches_dict`: the fetch dict plus the resulting cache
state. -/
def get_fetches_dict (env : FetchEnv) (st : BuildState) :
    List (String × String) × BuildState :=
  processReqs env.hasSummaries (fetchRequests env) st

/-- State extension: the graph only grows, a filled merged-summaries cache is
preserved, and without summaries the cache never changes. -/
def stExtends (hasSummaries : Bool) (s t : BuildState) : Prop :=
  (∀ n ∈ s.graph, n ∈ t.graph)
  ∧ (∀ n, s.mergedSummaries = some n → t.mergedSummaries = some n)
  ∧ (hasSummaries = false → t.mergedSummaries = s.mergedSummaries)

theorem stExtends_refl (h : Bool) (s : BuildState) : stExtends h s s :=
  ⟨fun _ hn => hn, fun _ hn => hn, fun _ => rfl⟩

theorem stExtends_trans {h : Bool} {a b c : BuildState}
    (hab : stExtends h a b) (hbc : stExtends h b c) : stExtends h a c :=
  ⟨fun n hn => hbc.1 n (hab.1 n hn),
   fun n hn => hbc.2.1 n (hab.2.1 n hn),
   fun hs => by rw [hbc.2.2 hs, hab.2.2 hs]⟩

theorem global_tensor_mem (g : List String) (name : String) :
    name ∈ (global_tensor g name).2 := by
  unfold global_tensor
  split
  · next hc => simpa [List.contains, List.elem_eq_mem] using hc
  · exact List.mem_append_right g (List.mem_singleton.mpr rfl)

theorem global_tensor_sub (g : List String) (name : String) :
    ∀ n ∈ g, n ∈ (global_tensor g name).2 := by
  intro n hn
  unfold global_tensor
  split
  · exact hn
  · exact List.mem_append_left _ hn

theorem global_tensor_hit (g : List String) (name : String) (hmem : name ∈ g) :
    global_tensor g name = (name, g) := by
  unfold global_tensor
  rw [if_pos (by simpa [List.contains, List.elem_eq_mem] using hmem)]

theorem procReq_extends (h : Bool) (st : BuildState) (r : FetchReq) :
    stExtends h st (processReq h st r).2 := by
  cases r with
  | fixed k n => exact stExtends_refl h st
  | prepare name =>
    exact ⟨fun n hn => global_tensor_sub st.graph name n hn, fun n hn => hn, fun _ => rfl⟩
  | cached k name =>
    exact ⟨fun n hn => global_tensor_sub st.graph name n hn, fun n hn => hn, fun _ => rfl⟩
  | invCached k name =>
    simp only [processReq]
    split
    · exact stExtends_refl h st
    · exact ⟨fun n hn => List.mem_append_left _
          (global_tensor_sub st.graph ("fetch_reduce_sum__" ++ name) n hn),
        fun n hn => hn, fun _ => rfl⟩
  | summary =>
    simp only [processReq]
    cases hm : st.mergedSummaries with
    | some n => exact stExtends_refl h st
    | none =>
      dsimp only
      split
      · next hs =>
        refine ⟨fun n hn => List.mem_append_left _ hn, fun n hn => ?_, fun hfalse => ?_⟩
        · rw [hm] at hn; cases hn
        · rw [hfalse] at hs; cases hs
      · exact stExtends_refl h st

theorem procReqs_extends (h : Bool) :
    ∀ (rs : List FetchReq) (st : BuildState), stExtends h st (processReqs h rs st).2 := by
  intro rs
  induction rs with
  | nil => intro st; exact stExtends_refl h st
  | cons r rest ih =>
    intro st
    exact stExtends_trans (procReq_extends h st r) (ih (processReq h st r).2)

theorem global_tensor_fst (g : List String) (name : String) :
    (global_tensor g name).1 = name := by
  unfold global_tensor
  split <;> rfl

theorem procReq_replay (h : Bool) (r : FetchReq) (st s1 : BuildState)
    (hext : stExtends h (processReq h st r).2 s1) :
    processReq h s1 r = ((processReq h st r).1, s1) := by
  cases r with
  | fixed k n => rfl
  | prepare name =>
    have hmem : name ∈ s1.graph :=
      hext.1 name (global_tensor_mem st.graph name)
    simp only [processReq]
    rw [global_tensor_hit s1.graph name hmem]
  | cached k name =>
    have hmem : name ∈ s1.graph :=
      hext.1 name (global_tensor_mem st.graph name)
    simp only [processReq]
    rw [global_tensor_hit s1.graph name hmem, global_tensor_fst]
  | invCached k name =>
    have hmem : ("fetch_inv_reduce_sum__" ++ name) ∈ s1.graph := by
      apply hext.1
      simp only [processReq]
      split
      · next hc => simpa [List.contains, List.elem_eq_mem] using hc
      · exact List.mem_append_right _ (List.mem_singleton.mpr rfl)
    have hout : (processReq h st (FetchReq.invCached k name)).1
        = [(k, "fetch_inv_reduce_sum__" ++ name)] := by
      simp only [processReq]
      split <;> rfl
    rw [hout]
    simp only [processReq]
    rw [if_pos (by simpa [List.contains, List.elem_eq_mem] using hmem)]
  | summary =>
    cases hm : st.mergedSummaries with
    | some n =>
      have hs1 : s1.mergedSummaries = some n := by
        apply hext.2.1
        simp only [processReq]
        rw [hm]
        exact hm
      have hout : (processReq h st FetchReq.summary).1 = [("summary", n)] := by
        simp only [processReq]
        rw [hm]
      rw [hout]
      simp only [processReq]
      rw [hs1]
    | none =>
      cases hh : h with
      | true =>
        have hpost : (processReq true st FetchReq.summary).2.mergedSummaries
            = some ("merged_summary_" ++ toString st.graph.length) := by
          simp only [processReq]
          rw [hm]
          rfl
        have hs1 : s1.mergedSummaries
            = some ("merged_summary_" ++ toString st.graph.length) := by
          apply hext.2.1
          rw [hh]
          exact hpost
        have hout : (processReq true st FetchReq.summary).1
            = [("summary", "merged_summary_" ++ toString st.graph.length)] := by
          simp only [processReq]
          rw [hm]
          rfl
        rw [hout]
        simp only [processReq]
        rw [hs1]
      | false =>
        have hpost : (processReq false st FetchReq.summary).2.mergedSummaries = none := by
          simp only [processReq]
          rw [hm]
          exact hm
        have hs1 : s1.mergedSummaries = none := by
          have h2 : s1.mergedSummaries = (processReq h st FetchReq.summary).2.mergedSummaries :=
            hext.2.2 hh
          rw [h2, hh]
          exact hpost
        have hout : (processReq false st FetchReq.summary).1 = [] := by
          simp only [processReq]
          rw [hm]
          rfl
        rw [hout]
        simp only [processReq]
        rw [hs1]
        rfl

theorem processReqs_replay (h : Bool) :
    ∀ (rs : List FetchReq) (st : BuildState),
      processReqs h rs (processReqs h rs st).2 = processReqs h rs st := by
  intro rs
  induction rs with
  | nil => intro st; rfl
  | cons r rest ih =>
    intro st
    have hext : stExtends h (processReq h st r).2
        (processReqs h rest (processReq h st r).2).2 :=
      procReqs_extends h rest (processReq h st r).2
    show processReqs h (r :: rest) (processReqs h rest (processReq h st r).2).2
      = processReqs h (r :: rest) st
    unfold processReqs
    rw [procReq_replay h r st _ hext]
    dsimp only
    rw [ih (processReq h st r).2]

/-- C9: re-invoking the fetch-set builder within one run returns the identical
fetch-set (same entries mapping to the same graph nodes) and creates no new
graph nodes or compiled requests: the cache state is unchanged. -/
theorem fetches_dict_idempotent (env : FetchEnv) (st : BuildState) :
    (get_fetches_dict env (get_fetches_dict env st).2).1 = (get_fetches_dict env st).1
    ∧ (get_fetches_dict env (get_fetches_dict env st).2).2 = (get_fetches_dict env st).2 := by
  unfold get_fetches_dict
  rw [processReqs_replay env.hasSummaries (fetchRequests env) st]
  exact ⟨rfl, rfl⟩

end TFEngine
